import Mathlib

/-!
Verification of the aduana page database (`src/page_db.h`).

The repository ships only the header `page_db.h`: declarations and doc
comments, no function bodies.  Every operation below is therefore a shallow
embedding modelled from the specification (`spec.md`), faithful to its words:
the five sub-databases, the ingestion protocol of §4.3, the PageInfo
serialization of §4.2, the link stream of §4.4, and the change-rate estimate
of §4.2.  Sub-databases are association lists in insertion order; machine
floats (`f64` timestamps, `f32` scores) are modelled as exact rationals where
only copies and comparisons happen, and as their little-endian machine words
where bytes are serialized.
-/

namespace Aduana

/-! ### Association lists (the model of an LMDB sub-database) -/

/-- Lookup in an association list: value of the first entry with key `k`. -/
def alookup {α : Type} : List (Nat × α) → Nat → Option α
  | [], _ => none
  | (k, v) :: rest, k' => if k = k' then some v else alookup rest k'

/-- Store into an association list: replace the first entry with key `k` if
present, otherwise append `(k, v)` at the end (insertion order kept). -/
def aput {α : Type} : List (Nat × α) → Nat → α → List (Nat × α)
  | [], k, v => [(k, v)]
  | (k0, v0) :: rest, k, v =>
      if k0 = k then (k, v) :: rest else (k0, v0) :: aput rest k v

theorem alookup_none_iff {α : Type} (l : List (Nat × α)) (k : Nat) :
    alookup l k = none ↔ k ∉ l.map Prod.fst := by
  induction l with
  | nil => simp [alookup]
  | cons hd tl ih =>
      obtain ⟨k0, v0⟩ := hd
      by_cases h : k0 = k
      · subst h
        simp only [alookup, if_pos rfl, if_true, List.map_cons, List.mem_cons]
        simp
      · simp only [alookup, if_neg h, List.map_cons, List.mem_cons, ih]
        constructor
        · rintro hm (rfl | hmem)
          · exact h rfl
          · exact hm hmem
        · intro hm hmem
          exact hm (Or.inr hmem)

theorem alookup_mem {α : Type} {l : List (Nat × α)} {k : Nat} {v : α}
    (h : alookup l k = some v) : (k, v) ∈ l := by
  induction l with
  | nil => simp [alookup] at h
  | cons hd tl ih =>
      obtain ⟨k0, v0⟩ := hd
      by_cases hk : k0 = k
      · subst hk
        simp only [alookup, if_pos rfl, if_true, Option.some.injEq] at h
        subst h
        exact List.mem_cons_self _ _
      · simp only [alookup, if_neg hk] at h
        exact List.mem_cons_of_mem _ (ih h)

theorem alookup_isSome_of_mem_keys {α : Type} {l : List (Nat × α)} {k : Nat}
    (h : k ∈ l.map Prod.fst) : ∃ v, alookup l k = some v := by
  rcases h' : alookup l k with _ | v
  · exact absurd h ((alookup_none_iff l k).mp h')
  · exact ⟨v, rfl⟩

theorem aput_of_not_mem {α : Type} {l : List (Nat × α)} {k : Nat} (v : α)
    (h : k ∉ l.map Prod.fst) : aput l k v = l ++ [(k, v)] := by
  induction l with
  | nil => simp [aput]
  | cons hd tl ih =>
      obtain ⟨k0, v0⟩ := hd
      simp only [List.map_cons, List.mem_cons, not_or] at h
      have hk : k0 ≠ k := fun e => h.1 e.symm
      simp [aput, hk, ih h.2]

theorem aput_map_fst_of_mem {α : Type} {l : List (Nat × α)} {k : Nat} (v : α)
    (h : k ∈ l.map Prod.fst) :
    (aput l k v).map Prod.fst = l.map Prod.fst := by
  induction l with
  | nil => simp at h
  | cons hd tl ih =>
      obtain ⟨k0, v0⟩ := hd
      by_cases hk : k0 = k
      · simp [aput, hk]
      · simp only [List.map_cons, List.mem_cons] at h
        rcases h with h | h
        · exact absurd h.symm hk
        · simp [aput, hk, ih h]

theorem alookup_aput_ne {α : Type} (l : List (Nat × α)) {k k' : Nat} (v : α)
    (h : k ≠ k') : alookup (aput l k v) k' = alookup l k' := by
  induction l with
  | nil => simp [aput, alookup, h]
  | cons hd tl ih =>
      obtain ⟨k0, v0⟩ := hd
      by_cases hk : k0 = k
      · subst hk
        have h' : k' ≠ k0 := fun e => h e.symm
        simp [aput, alookup, h, h']
      · simp [aput, alookup, hk, ih]

theorem alookup_aput_self {α : Type} (l : List (Nat × α)) (k : Nat) (v : α) :
    alookup (aput l k v) k = some v := by
  induction l with
  | nil => simp [aput, alookup]
  | cons hd tl ih =>
      obtain ⟨k0, v0⟩ := hd
      by_cases hk : k0 = k <;> simp [aput, alookup, hk, ih]

theorem aput_mem {α : Type} {l : List (Nat × α)} {k : Nat} {v : α} {e : Nat × α}
    (h : e ∈ aput l k v) : e ∈ l ∨ e = (k, v) := by
  induction l with
  | nil => simp [aput] at h; simp [h]
  | cons hd tl ih =>
      obtain ⟨k0, v0⟩ := hd
      by_cases hk : k0 = k
      · simp only [aput, if_pos hk, List.mem_cons] at h
        rcases h with h | h
        · exact Or.inr h
        · exact Or.inl (List.mem_cons_of_mem _ h)
      · simp only [aput, if_neg hk, List.mem_cons] at h
        rcases h with h | h
        · exact Or.inl (h ▸ List.mem_cons_self _ _)
        · rcases ih h with h' | h'
          · exact Or.inl (List.mem_cons_of_mem _ h')
          · exact Or.inr h'

/-- In an association list whose values are pairwise distinct, lookups at two
distinct keys never return the same value. -/
theorem alookup_inj {α : Type} [DecidableEq α] {l : List (Nat × α)}
    (hnd : (l.map Prod.snd).Nodup) {k1 k2 : Nat} {v : α}
    (h1 : alookup l k1 = some v) (h2 : alookup l k2 = some v) : k1 = k2 := by
  induction l with
  | nil => simp [alookup] at h1
  | cons hd tl ih =>
      obtain ⟨k0, v0⟩ := hd
      simp only [List.map_cons, List.nodup_cons] at hnd
      by_cases e1 : k0 = k1
      · subst e1
        by_cases e2 : k0 = k2
        · omega
        · simp only [alookup, if_pos rfl, if_true, Option.some.injEq] at h1
          simp only [alookup, if_neg e2] at h2
          exact absurd (h1 ▸ List.mem_map_of_mem Prod.snd (alookup_mem h2)) hnd.1
      · by_cases e2 : k0 = k2
        · subst e2
          simp only [alookup, if_neg e1] at h1
          simp only [alookup, if_pos rfl, if_true, Option.some.injEq] at h2
          exact absurd (h2 ▸ List.mem_map_of_mem Prod.snd (alookup_mem h1)) hnd.1
        · simp only [alookup, if_neg e1] at h1
          simp only [alookup, if_neg e2] at h2
          exact ih hnd.2 h1 h2

/-! ### Data model (`page_db.h`, spec §3) -/

/-- The persisted per-URL record (`PageInfo` in `page_db.h`).  Timestamps and
score are `f64`/`f32` in C; here exact rationals, since the database only
copies and compares them.  `content_hash` is the opaque byte sequence;
`content_hash_length` of the C struct is `content_hash.length`. -/
structure PageInfo where
  url : String
  first_crawl : ℚ
  last_crawl : ℚ
  n_changes : Nat
  n_crawls : Nat
  score : ℚ
  content_hash : List Nat
  deriving DecidableEq, Repr

/-- One link inside a crawled page (`LinkInfo` in `page_db.h`). -/
structure LinkInfo where
  url : String
  score : ℚ
  deriving DecidableEq, Repr

/-- The input of one crawl event (`CrawledPage` in `page_db.h`). -/
structure CrawledPage where
  url : String
  links : List LinkInfo
  time : ℚ
  score : ℚ
  content_hash : List Nat
  deriving DecidableEq, Repr

/-- Modelled from the spec (§4.3): the five sub-databases of a `PageDB`.
`info` holds only the page counter `N` under key `"n_pages"`, modelled as the
field `info_n_pages`; `hash2idx`, `hash2info` and `links` are association
lists in insertion order.  (The fifth, reserved ranking sub-database is out
of scope.) -/
structure PageDB where
  info_n_pages : Nat
  hash2idx : List (Nat × Nat)
  hash2info : List (Nat × PageInfo)
  links : List (Nat × List Nat)
  deriving DecidableEq, Repr

/-- A fresh, empty database: `N = 0`, all sub-databases empty. -/
def page_db_fresh : PageDB := ⟨0, [], [], []⟩

/-! ### Ingestion (`page_db_add`, spec §4.3) -/

/-- Modelled from the spec (§4.3, step 3 miss): the `PageInfo` created for a
URL first observed as a link target: `n_crawls = 0`,
`first_crawl = last_crawl = 0`, empty hash, `score = score_i`. -/
def link_page_info (u : String) (s : ℚ) : PageInfo :=
  { url := u, first_crawl := 0, last_crawl := 0, n_changes := 0,
    n_crawls := 0, score := s, content_hash := [] }

/-- Modelled from the spec (§4.3, step 2 miss): the `PageInfo` created the
first time a URL is crawled: `first_crawl = last_crawl = page.time`,
`n_crawls = 1`, `n_changes = 0`, `score = page.score`,
`content_hash = page.content_hash`. -/
def crawl_page_info (page : CrawledPage) : PageInfo :=
  { url := page.url, first_crawl := page.time, last_crawl := page.time,
    n_changes := 0, n_crawls := 1, score := page.score,
    content_hash := page.content_hash }

/-- Modelled from the spec (§4.3, step 2 hit): recrawl update of a stored
`PageInfo`.  `n_changes` is incremented exactly when the stored hash is
non-empty and differs byte-for-byte from the new one; `last_crawl`, `score`
and `content_hash` are replaced, `n_crawls` incremented, `first_crawl`
untouched. -/
def page_info_update (old : PageInfo) (page : CrawledPage) : PageInfo :=
  { old with
    n_changes :=
      if old.content_hash ≠ [] ∧ old.content_hash ≠ page.content_hash
      then old.n_changes + 1 else old.n_changes,
    last_crawl := page.time,
    n_crawls := old.n_crawls + 1,
    score := page.score,
    content_hash := page.content_hash }

/-- Modelled from the spec (§4.3, step 2, the body of `page_db_add` being
absent from the repository): look up `h(page.url)` in `hash2idx`; on miss
allocate index `N`, increment `N`, insert into both maps; on hit update the
stored `PageInfo`.  Returns the new state, the page's index and its
(new or updated) `PageInfo`. -/
def add_step2 (h : String → Nat) (db : PageDB) (page : CrawledPage) :
    PageDB × Nat × PageInfo :=
  let hpage := h page.url
  match alookup db.hash2idx hpage with
  | none =>
      let idx := db.info_n_pages
      let pi := crawl_page_info page
      ({ db with info_n_pages := idx + 1,
                 hash2idx := aput db.hash2idx hpage idx,
                 hash2info := aput db.hash2info hpage pi }, idx, pi)
  | some idx =>
      let pi := page_info_update
        ((alookup db.hash2info hpage).getD (link_page_info page.url 0)) page
      ({ db with hash2info := aput db.hash2info hpage pi }, idx, pi)

/-- Modelled from the spec (§4.3, step 3): process one link.  If its
fingerprint equals the page's own, the link is dropped.  On hit the store is
untouched and the target's stored `PageInfo` is only read; on miss a fresh
index and a `link_page_info` record are inserted.  Returns the state and,
for kept links, `(idx_i, h_i, PageInfo_i)`. -/
def add_link (h : String → Nat) (hpage : Nat) (db : PageDB) (l : LinkInfo) :
    PageDB × Option (Nat × Nat × PageInfo) :=
  let hi := h l.url
  if hi = hpage then (db, none)
  else
    match alookup db.hash2idx hi with
    | some idx =>
        (db, some (idx, hi, (alookup db.hash2info hi).getD
                              (link_page_info l.url l.score)))
    | none =>
        let idx := db.info_n_pages
        let pi := link_page_info l.url l.score
        ({ db with info_n_pages := idx + 1,
                   hash2idx := aput db.hash2idx hi idx,
                   hash2info := aput db.hash2info hi pi }, some (idx, hi, pi))

/-- Step 3 folded over the link list in declared order. -/
def add_links (h : String → Nat) (hpage : Nat) :
    PageDB → List LinkInfo → PageDB × List (Option (Nat × Nat × PageInfo))
  | db, [] => (db, [])
  | db, l :: ls =>
      let r1 := add_link h hpage db l
      let r2 := add_links h hpage r1.1 ls
      (r2.1, r1.2 :: r2.2)

/-- The resolved target indices of the kept links, in declared order. -/
def entry_idxs (es : List (Option (Nat × Nat × PageInfo))) : List Nat :=
  es.filterMap (fun e => e.map (fun t => t.1))

/-- The `(fingerprint, PageInfo)` pairs of the kept links, in declared
order. -/
def entry_infos (es : List (Option (Nat × Nat × PageInfo))) :
    List (Nat × PageInfo) :=
  es.filterMap (fun e => e.map (fun t => (t.2.1, t.2.2)))

/-- Deduplicate a `(fingerprint, PageInfo)` sequence by fingerprint, keeping
the first occurrence; `seen` accumulates fingerprints already emitted. -/
def dedup_keys : List Nat → List (Nat × PageInfo) → List (Nat × PageInfo)
  | _, [] => []
  | seen, (k, v) :: rest =>
      if k ∈ seen then dedup_keys seen rest
      else (k, v) :: dedup_keys (k :: seen) rest

/-- Modelled from the spec (§4.3, the body of `page_db_add` being absent from
the repository): ingestion of one `CrawledPage` inside one write transaction.
Steps: (2) the page itself, (3) its links in declared order, (4) full
replacement of the page's `links` row with the resolved target indices.
Returns the committed state and the touched list: the page first, then the
link targets in declared order, deduplicated by fingerprint. -/
def page_db_add (h : String → Nat) (db : PageDB) (page : CrawledPage) :
    PageDB × List (Nat × PageInfo) :=
  let hpage := h page.url
  let s2 := add_step2 h db page
  let r := add_links h hpage s2.1 page.links
  let db' := { r.1 with links := aput r.1.links s2.2.1 (entry_idxs r.2) }
  (db', dedup_keys [] ((hpage, s2.2.2) :: entry_infos r.2))

/-- Run a sequence of committed `page_db_add` calls from a fresh database. -/
def page_db_run (h : String → Nat) (pages : List CrawledPage) : PageDB :=
  pages.foldl (fun db p => (page_db_add h db p).1) page_db_fresh

/-! ### The index invariant (spec §3, invariants 1-2) -/

/-- Indices in `hash2idx` are, in insertion order, exactly `0, 1, …, N−1`,
and `hash2idx` and `hash2info` hold exactly the same fingerprints in the
same order. -/
def IdxInv (db : PageDB) : Prop :=
  db.hash2idx.map Prod.snd = List.range db.info_n_pages ∧
  db.hash2idx.map Prod.fst = db.hash2info.map Prod.fst

/-- Every key of `links` and every index in its rows is a valid page index,
and no row contains its own key (no self-loops). -/
def LinksInv (db : PageDB) : Prop :=
  ∀ e ∈ db.links, e.1 < db.info_n_pages ∧ ∀ v ∈ e.2, v < db.info_n_pages ∧ v ≠ e.1

theorem idx_values_nodup {db : PageDB} (hinv : IdxInv db) :
    (db.hash2idx.map Prod.snd).Nodup := hinv.1 ▸ List.nodup_range _

theorem alookup_idx_lt {db : PageDB} {k i : Nat} (hinv : IdxInv db)
    (hk : alookup db.hash2idx k = some i) : i < db.info_n_pages := by
  have hm := List.mem_map_of_mem Prod.snd (alookup_mem hk)
  rw [hinv.1] at hm
  exact List.mem_range.mp hm

theorem add_step2_links (h : String → Nat) (db : PageDB) (page : CrawledPage) :
    (add_step2 h db page).1.links = db.links := by
  rcases hl : alookup db.hash2idx (h page.url) with _ | idx <;>
    simp [add_step2, hl]

theorem add_step2_n_pages_le (h : String → Nat) (db : PageDB)
    (page : CrawledPage) :
    db.info_n_pages ≤ (add_step2 h db page).1.info_n_pages := by
  rcases hl : alookup db.hash2idx (h page.url) with _ | idx <;>
    simp [add_step2, hl]

theorem add_step2_lookup (h : String → Nat) (db : PageDB) (page : CrawledPage) :
    alookup (add_step2 h db page).1.hash2idx (h page.url) =
      some (add_step2 h db page).2.1 := by
  rcases hl : alookup db.hash2idx (h page.url) with _ | idx <;>
    simp [add_step2, hl, alookup_aput_self]

theorem add_step2_idx_lt {h : String → Nat} {db : PageDB} {page : CrawledPage}
    (hinv : IdxInv db) :
    (add_step2 h db page).2.1 < (add_step2 h db page).1.info_n_pages := by
  rcases hl : alookup db.hash2idx (h page.url) with _ | idx
  · simp [add_step2, hl]
  · simpa [add_step2, hl] using alookup_idx_lt hinv hl

theorem add_step2_IdxInv {h : String → Nat} {db : PageDB} {page : CrawledPage}
    (hinv : IdxInv db) : IdxInv (add_step2 h db page).1 := by
  rcases hl : alookup db.hash2idx (h page.url) with _ | idx
  · have hni : h page.url ∉ db.hash2idx.map Prod.fst :=
      (alookup_none_iff _ _).mp hl
    have hni' : h page.url ∉ db.hash2info.map Prod.fst := hinv.2 ▸ hni
    constructor
    · simp only [add_step2, hl, aput_of_not_mem _ hni, List.map_append,
        List.map_cons, List.map_nil, hinv.1, List.range_succ]
    · simp only [add_step2, hl, aput_of_not_mem _ hni, aput_of_not_mem _ hni',
        List.map_append, List.map_cons, List.map_nil, hinv.2]
  · have hmi : h page.url ∈ db.hash2idx.map Prod.fst :=
      List.mem_map_of_mem Prod.fst (alookup_mem hl)
    have hmi' : h page.url ∈ db.hash2info.map Prod.fst := hinv.2 ▸ hmi
    constructor
    · simpa [add_step2, hl] using hinv.1
    · simp only [add_step2, hl]
      rw [aput_map_fst_of_mem _ hmi']
      exact hinv.2

theorem add_link_links (h : String → Nat) (hpage : Nat) (db : PageDB)
    (l : LinkInfo) : (add_link h hpage db l).1.links = db.links := by
  by_cases he : h l.url = hpage
  · simp [add_link, he]
  · rcases hl : alookup db.hash2idx (h l.url) with _ | idx <;>
      simp [add_link, he, hl]

theorem add_link_n_pages_le (h : String → Nat) (hpage : Nat) (db : PageDB)
    (l : LinkInfo) :
    db.info_n_pages ≤ (add_link h hpage db l).1.info_n_pages := by
  by_cases he : h l.url = hpage
  · simp [add_link, he]
  · rcases hl : alookup db.hash2idx (h l.url) with _ | idx <;>
      simp [add_link, he, hl]

theorem add_link_lookup_mono {h : String → Nat} {hpage : Nat} {db : PageDB}
    {l : LinkInfo} {k i : Nat} (hk : alookup db.hash2idx k = some i) :
    alookup (add_link h hpage db l).1.hash2idx k = some i := by
  by_cases he : h l.url = hpage
  · simpa [add_link, he] using hk
  · rcases hl : alookup db.hash2idx (h l.url) with _ | idx
    · have hne : h l.url ≠ k := fun e => by rw [e, hk] at hl; cases hl
      simpa [add_link, he, hl, alookup_aput_ne _ _ hne] using hk
    · simpa [add_link, he, hl] using hk

theorem add_link_IdxInv {h : String → Nat} {hpage : Nat} {db : PageDB}
    {l : LinkInfo} (hinv : IdxInv db) : IdxInv (add_link h hpage db l).1 := by
  by_cases he : h l.url = hpage
  · simpa [add_link, he] using hinv
  · rcases hl : alookup db.hash2idx (h l.url) with _ | idx
    · have hni : h l.url ∉ db.hash2idx.map Prod.fst :=
        (alookup_none_iff _ _).mp hl
      have hni' : h l.url ∉ db.hash2info.map Prod.fst := hinv.2 ▸ hni
      constructor
      · simp only [add_link, if_neg he, hl, aput_of_not_mem _ hni]
        simp [hinv.1, List.range_succ]
      · simp only [add_link, if_neg he, hl, aput_of_not_mem _ hni,
          aput_of_not_mem _ hni']
        simp [hinv.2]
    · simpa [add_link, he, hl] using hinv

/-- On a kept link the produced index is a valid page index of the new state
and differs from any index the page's own fingerprint maps to. -/
theorem add_link_entry_idx {h : String → Nat} {hpage : Nat} {db : PageDB}
    {l : LinkInfo} {t : Nat × Nat × PageInfo} (hinv : IdxInv db)
    (ht : (add_link h hpage db l).2 = some t) :
    t.1 < (add_link h hpage db l).1.info_n_pages ∧
    ∀ ip, alookup db.hash2idx hpage = some ip → t.1 ≠ ip := by
  by_cases he : h l.url = hpage
  · simp [add_link, he] at ht
  · rcases hl : alookup db.hash2idx (h l.url) with _ | idx
    · simp only [add_link, if_neg he, hl, Option.some.injEq] at ht
      subst ht
      constructor
      · simp [add_link, if_neg he, hl]
      · intro ip hip
        have hlt := alookup_idx_lt hinv hip
        simp
        omega
    · simp only [add_link, if_neg he, hl, Option.some.injEq] at ht
      subst ht
      constructor
      · simp only [add_link, if_neg he, hl]
        simpa using alookup_idx_lt hinv hl
      · intro ip hip hcontra
        simp at hcontra
        exact he (alookup_inj (idx_values_nodup hinv) hl (hcontra.symm ▸ hip))

theorem add_links_links (h : String → Nat) (hpage : Nat) (db : PageDB)
    (ls : List LinkInfo) : (add_links h hpage db ls).1.links = db.links := by
  induction ls generalizing db with
  | nil => rfl
  | cons l ls ih =>
      simp only [add_links]
      rw [ih, add_link_links]

theorem add_links_n_pages_le (h : String → Nat) (hpage : Nat) (db : PageDB)
    (ls : List LinkInfo) :
    db.info_n_pages ≤ (add_links h hpage db ls).1.info_n_pages := by
  induction ls generalizing db with
  | nil => exact le_refl _
  | cons l ls ih =>
      simp only [add_links]
      exact le_trans (add_link_n_pages_le h hpage db l) (ih _)

theorem add_links_lookup_mono {h : String → Nat} {hpage : Nat} {db : PageDB}
    {ls : List LinkInfo} {k i : Nat} (hk : alookup db.hash2idx k = some i) :
    alookup (add_links h hpage db ls).1.hash2idx k = some i := by
  induction ls generalizing db with
  | nil => exact hk
  | cons l ls ih =>
      simp only [add_links]
      exact ih (add_link_lookup_mono hk)

theorem add_links_IdxInv {h : String → Nat} {hpage : Nat} {db : PageDB}
    {ls : List LinkInfo} (hinv : IdxInv db) :
    IdxInv (add_links h hpage db ls).1 := by
  induction ls generalizing db with
  | nil => exact hinv
  | cons l ls ih =>
      simp only [add_links]
      exact ih (add_link_IdxInv hinv)

/-- Every target index collected while processing the links is a valid page
index of the final state and differs from the page's own index. -/
theorem add_links_entry_idxs {h : String → Nat} {hpage : Nat} {db : PageDB}
    {ls : List LinkInfo} {ip : Nat} (hinv : IdxInv db)
    (hip : alookup db.hash2idx hpage = some ip) :
    ∀ v ∈ entry_idxs (add_links h hpage db ls).2,
      v < (add_links h hpage db ls).1.info_n_pages ∧ v ≠ ip := by
  induction ls generalizing db with
  | nil => intro v hv; simp [add_links, entry_idxs] at hv
  | cons l ls ih =>
      intro v hv
      rcases he : (add_link h hpage db l).2 with _ | t
      · simp only [add_links, entry_idxs, List.filterMap_cons, he,
          Option.map_none'] at hv ⊢
        exact ih (add_link_IdxInv hinv) (add_link_lookup_mono hip) v hv
      · simp only [add_links, entry_idxs, List.filterMap_cons, he,
          Option.map_some', List.mem_cons] at hv ⊢
        rcases hv with rfl | hv
        · have hb := add_link_entry_idx hinv he
          refine ⟨lt_of_lt_of_le hb.1 (add_links_n_pages_le _ _ _ _), hb.2 ip hip⟩
        · exact ih (add_link_IdxInv hinv) (add_link_lookup_mono hip) v hv

theorem page_db_add_IdxInv {h : String → Nat} {db : PageDB}
    {page : CrawledPage} (hinv : IdxInv db) :
    IdxInv (page_db_add h db page).1 :=
  add_links_IdxInv (add_step2_IdxInv hinv)

theorem page_db_add_n_pages_le (h : String → Nat) (db : PageDB)
    (page : CrawledPage) :
    db.info_n_pages ≤ (page_db_add h db page).1.info_n_pages :=
  le_trans (add_step2_n_pages_le h db page) (add_links_n_pages_le _ _ _ _)

theorem page_db_add_LinksInv {h : String → Nat} {db : PageDB}
    {page : CrawledPage} (hinv : IdxInv db) (hlinv : LinksInv db) :
    LinksInv (page_db_add h db page).1 := by
  intro e he
  have hlinks : (add_links h (h page.url) (add_step2 h db page).1
      page.links).1.links = db.links := by
    rw [add_links_links, add_step2_links]
  have he' : e ∈ aput (add_links h (h page.url) (add_step2 h db page).1
      page.links).1.links (add_step2 h db page).2.1
      (entry_idxs (add_links h (h page.url) (add_step2 h db page).1
        page.links).2) := he
  rcases aput_mem he' with hmem | rfl
  · rw [hlinks] at hmem
    have hb := hlinv e hmem
    have hle : db.info_n_pages ≤ (page_db_add h db page).1.info_n_pages :=
      page_db_add_n_pages_le h db page
    exact ⟨lt_of_lt_of_le hb.1 hle,
      fun v hv => ⟨lt_of_lt_of_le ((hb.2 v hv).1) hle, (hb.2 v hv).2⟩⟩
  · constructor
    · exact lt_of_lt_of_le (add_step2_idx_lt hinv) (add_links_n_pages_le _ _ _ _)
    · intro v hv
      exact add_links_entry_idxs (add_step2_IdxInv hinv)
        (add_step2_lookup h db page) v hv

/-- The combined reachable-state invariant. -/
def Inv (db : PageDB) : Prop := IdxInv db ∧ LinksInv db

theorem page_db_add_Inv {h : String → Nat} {db : PageDB} {page : CrawledPage}
    (hinv : Inv db) : Inv (page_db_add h db page).1 :=
  ⟨page_db_add_IdxInv hinv.1, page_db_add_LinksInv hinv.1 hinv.2⟩

theorem page_db_fresh_Inv : Inv page_db_fresh := by
  refine ⟨⟨rfl, rfl⟩, ?_⟩
  intro e he
  simp [page_db_fresh] at he

theorem page_db_run_Inv (h : String → Nat) (pages : List CrawledPage) :
    Inv (page_db_run h pages) := by
  have hgen : ∀ (ps : List CrawledPage) (db : PageDB), Inv db →
      Inv (ps.foldl (fun d p => (page_db_add h d p).1) db) := by
    intro ps
    induction ps with
    | nil => intro db hdb; exact hdb
    | cons p ps ih =>
        intro db hdb
        exact ih _ (page_db_add_Inv hdb)
  exact hgen pages page_db_fresh page_db_fresh_Inv

/-! ### Frame lemmas: what `page_db_add` leaves untouched -/

theorem add_step2_frame (h : String → Nat) (db : PageDB) (page : CrawledPage)
    {k : Nat} (hne : k ≠ h page.url) :
    alookup (add_step2 h db page).1.hash2idx k = alookup db.hash2idx k ∧
    alookup (add_step2 h db page).1.hash2info k = alookup db.hash2info k := by
  have hne' : h page.url ≠ k := Ne.symm hne
  rcases hl : alookup db.hash2idx (h page.url) with _ | idx <;>
    constructor <;> simp [add_step2, hl, alookup_aput_ne _ _ hne']

theorem add_link_frame (h : String → Nat) (hpage : Nat) (w : PageDB)
    (l : LinkInfo) {k i : Nat} (hk : alookup w.hash2idx k = some i) :
    alookup (add_link h hpage w l).1.hash2idx k = alookup w.hash2idx k ∧
    alookup (add_link h hpage w l).1.hash2info k = alookup w.hash2info k := by
  by_cases he : h l.url = hpage
  · simp [add_link, he]
  · rcases hl : alookup w.hash2idx (h l.url) with _ | idx
    · have hne : h l.url ≠ k := fun e => by rw [e, hk] at hl; cases hl
      constructor <;> simp [add_link, he, hl, alookup_aput_ne _ _ hne]
    · simp [add_link, he, hl]

theorem add_links_frame (h : String → Nat) (hpage : Nat) {w : PageDB}
    (ls : List LinkInfo) {k i : Nat} (hk : alookup w.hash2idx k = some i) :
    alookup (add_links h hpage w ls).1.hash2idx k = some i ∧
    alookup (add_links h hpage w ls).1.hash2info k = alookup w.hash2info k := by
  induction ls generalizing w with
  | nil => exact ⟨hk, rfl⟩
  | cons l ls ih =>
      have hf := add_link_frame h hpage w l hk
      have hk' : alookup (add_link h hpage w l).1.hash2idx k = some i := by
        rw [hf.1, hk]
      obtain ⟨a, b⟩ := ih hk'
      exact ⟨by simpa [add_links] using a,
        by simpa [add_links] using b.trans hf.2⟩

/-! ### Claim theorems -/

/-- A simple concrete fingerprint function used by the witnesses. -/
def hw : String → Nat := String.length

/-- A concrete crawled page used by the witnesses: `"ab"` links to `"c"`. -/
def pw : CrawledPage :=
  { url := "ab", links := [{ url := "c", score := 0 }],
    time := 1, score := 0, content_hash := [] }

/-- The state after ingesting `pw` into a fresh database. -/
def db1w : PageDB := (page_db_add hw page_db_fresh pw).1

/-- A recrawl of `pw` with a new time and a new content hash. -/
def pw2 : CrawledPage :=
  { url := "ab", links := [], time := 2, score := 3, content_hash := [1] }

/-- A page whose link target `"ab"` already exists in `db1w`. -/
def pw3 : CrawledPage :=
  { url := "ddd", links := [{ url := "ab", score := 5 }],
    time := 4, score := 0, content_hash := [] }

/-- **C2.** After every committed sequence of `page_db_add` calls starting
from a fresh database, the number of entries of `hash2idx` and of
`hash2info` both equal the page counter `N` kept in `info`, and the index
values of `hash2idx` are, in first-observation order, exactly
`0, 1, …, N−1` — consecutive from `0`, never reused. -/
theorem page_db_index_invariant (h : String → Nat) (pages : List CrawledPage) :
    (page_db_run h pages).hash2idx.length = (page_db_run h pages).info_n_pages ∧
    (page_db_run h pages).hash2info.length = (page_db_run h pages).info_n_pages ∧
    (page_db_run h pages).hash2idx.map Prod.snd =
      List.range (page_db_run h pages).info_n_pages := by
  obtain ⟨⟨hrange, hkeys⟩, _⟩ := page_db_run_Inv h pages
  refine ⟨?_, ?_, hrange⟩
  · have := congrArg List.length hrange
    simpa using this
  · have h1 := congrArg List.length hrange
    have h2 := congrArg List.length hkeys
    simp only [List.length_map, List.length_range] at h1 h2
    omega

/-- **C5.** After every committed sequence of `page_db_add` calls starting
from a fresh database, every key `k` of the `links` sub-database and every
value `v` of its row satisfy `k < N`, `v < N` and `v ≠ k`: in particular no
self-loop is ever recorded. -/
theorem page_db_links_wellformed (h : String → Nat) (pages : List CrawledPage) :
    ∀ e ∈ (page_db_run h pages).links,
      e.1 < (page_db_run h pages).info_n_pages ∧
      ∀ v ∈ e.2, v < (page_db_run h pages).info_n_pages ∧ v ≠ e.1 :=
  (page_db_run_Inv h pages).2

/-- Witness for `page_db_links_wellformed`: in the database built by
ingesting `pw` the row `0 ↦ [1]` is stored, and its target index `1` is a
valid page index different from the key `0`. -/
theorem page_db_links_wellformed_witness :
    (1 : Nat) < (page_db_run hw [pw]).info_n_pages ∧ (1 : Nat) ≠ 0 :=
  (page_db_links_wellformed hw [pw] (0, [1]) (by decide)).2 1 (by decide)

/-- **C4.** When `page_db_add` is called for a URL already present (hit),
the stored `PageInfo` afterwards has `last_crawl = page.time`,
`score = page.score`, `content_hash = page.content_hash`, `n_crawls`
incremented by one, `first_crawl` (and `url`) unchanged, and `n_changes`
incremented exactly when the previously stored hash was non-empty and
differs byte-for-byte from `page.content_hash`. -/
theorem page_db_add_recrawl_update (h : String → Nat) (db : PageDB)
    (page : CrawledPage) (i : Nat) (old : PageInfo)
    (hidx : alookup db.hash2idx (h page.url) = some i)
    (hinfo : alookup db.hash2info (h page.url) = some old) :
    alookup (page_db_add h db page).1.hash2info (h page.url) =
      some { old with
             last_crawl := page.time,
             score := page.score,
             content_hash := page.content_hash,
             n_crawls := old.n_crawls + 1,
             n_changes :=
               if old.content_hash ≠ [] ∧ old.content_hash ≠ page.content_hash
               then old.n_changes + 1 else old.n_changes } := by
  have hs2info : alookup (add_step2 h db page).1.hash2info (h page.url) =
      some (page_info_update old page) := by
    simp [add_step2, hidx, hinfo, alookup_aput_self, page_info_update]
  have hs2idx : alookup (add_step2 h db page).1.hash2idx (h page.url) =
      some i := by simp [add_step2, hidx]
  have hfr := add_links_frame h (h page.url) page.links hs2idx
  show alookup (add_links h (h page.url) (add_step2 h db page).1
      page.links).1.hash2info (h page.url) = _
  rw [hfr.2, hs2info]
  rfl

/-- Witness for `page_db_add_recrawl_update`: recrawling `"ab"` in `db1w`
with time 2, score 3 and hash `[1]` updates the stored record as specified
(here the old hash is empty, so `n_changes` stays 0). -/
theorem page_db_add_recrawl_update_witness :
    alookup (page_db_add hw db1w pw2).1.hash2info (hw pw2.url) =
      some { crawl_page_info pw with
             last_crawl := pw2.time,
             score := pw2.score,
             content_hash := pw2.content_hash,
             n_crawls := (crawl_page_info pw).n_crawls + 1,
             n_changes :=
               if (crawl_page_info pw).content_hash ≠ [] ∧
                  (crawl_page_info pw).content_hash ≠ pw2.content_hash
               then (crawl_page_info pw).n_changes + 1
               else (crawl_page_info pw).n_changes } :=
  page_db_add_recrawl_update hw db1w pw2 0 (crawl_page_info pw)
    (by decide) (by decide)

/-- **C6.** A link `(url_i, score_i)` of the crawled page whose fingerprint
already exists in the database leaves the target's stored `PageInfo`
completely unchanged — in particular its `score` is not set to `score_i` —
and, at the step level, processing a link whose fingerprint is already in
`hash2idx` leaves the whole store untouched. -/
theorem page_db_add_link_target_frame (h : String → Nat) (db : PageDB)
    (page : CrawledPage) (l : LinkInfo) (i : Nat) (pi : PageInfo)
    (hl : l ∈ page.links)
    (hne : h l.url ≠ h page.url)
    (hidx : alookup db.hash2idx (h l.url) = some i)
    (hinfo : alookup db.hash2info (h l.url) = some pi) :
    alookup (page_db_add h db page).1.hash2info (h l.url) = some pi ∧
    ∀ (w : PageDB) (j : Nat), alookup w.hash2idx (h l.url) = some j →
      (add_link h (h page.url) w l).1 = w := by
  constructor
  · have hfr2 := add_step2_frame h db page hne
    have hs2idx : alookup (add_step2 h db page).1.hash2idx (h l.url) =
        some i := by rw [hfr2.1, hidx]
    have hfr3 := add_links_frame h (h page.url) page.links hs2idx
    show alookup (add_links h (h page.url) (add_step2 h db page).1
        page.links).1.hash2info (h l.url) = some pi
    rw [hfr3.2, hfr2.2, hinfo]
  · intro w j hj
    simp [add_link, hne, hj]

/-- Witness for `page_db_add_link_target_frame`: adding `pw3` (which links
to the already-known `"ab"` with link score 5) leaves the stored record of
`"ab"` exactly as it was — its score is still the crawl score, not 5. -/
theorem page_db_add_link_target_frame_witness :
    alookup (page_db_add hw db1w pw3).1.hash2info
        (hw ({ url := "ab", score := 5 } : LinkInfo).url) =
      some (crawl_page_info pw) :=
  (page_db_add_link_target_frame hw db1w pw3 { url := "ab", score := 5 } 0
    (crawl_page_info pw) (by decide) (by decide) (by decide) (by decide)).1

/-! ### The touched list (claim C9) -/

/-- First-occurrence deduplication of a fingerprint sequence, with an
accumulator of fingerprints already emitted. -/
def dedupF_aux : List Nat → List Nat → List Nat
  | _, [] => []
  | seen, x :: xs =>
      if x ∈ seen then dedupF_aux seen xs else x :: dedupF_aux (x :: seen) xs

/-- First-occurrence deduplication of a fingerprint sequence. -/
def dedupF (l : List Nat) : List Nat := dedupF_aux [] l

theorem dedup_keys_map_fst (seen : List Nat) (ps : List (Nat × PageInfo)) :
    (dedup_keys seen ps).map Prod.fst = dedupF_aux seen (ps.map Prod.fst) := by
  induction ps generalizing seen with
  | nil => rfl
  | cons p ps ih =>
      obtain ⟨k, v⟩ := p
      by_cases hk : k ∈ seen <;> simp [dedup_keys, dedupF_aux, hk, ih]

/-- Remove every occurrence of the page's own fingerprint `hp` from a
fingerprint sequence (the dropped self-loops). -/
def drop_self (hp : Nat) : List Nat → List Nat
  | [] => []
  | x :: xs => if x = hp then drop_self hp xs else x :: drop_self hp xs

theorem dedupF_aux_drop_self (hp : Nat) (xs : List Nat) :
    ∀ seen, hp ∈ seen →
      dedupF_aux seen (drop_self hp xs) = dedupF_aux seen xs := by
  induction xs with
  | nil => intro seen _; rfl
  | cons x xs ih =>
      intro seen hseen
      by_cases hx : x = hp
      · subst hx
        simp [drop_self, dedupF_aux, hseen, ih seen hseen]
      · by_cases hmem : x ∈ seen
        · simp [drop_self, dedupF_aux, hx, hmem, ih seen hseen]
        · simp [drop_self, dedupF_aux, hx, hmem,
            ih (x :: seen) (List.mem_cons_of_mem _ hseen)]

theorem entry_infos_keys (h : String → Nat) (hpage : Nat)
    (ls : List LinkInfo) : ∀ w : PageDB,
    (entry_infos (add_links h hpage w ls).2).map Prod.fst =
      drop_self hpage (ls.map (fun l => h l.url)) := by
  induction ls with
  | nil => intro w; rfl
  | cons l ls ih =>
      intro w
      by_cases he : h l.url = hpage
      · simp only [add_links, entry_infos, List.filterMap_cons, add_link,
          if_pos he, List.map_cons, drop_self, if_pos he]
        simp only [entry_infos] at ih
        exact ih _
      · rcases hl : alookup w.hash2idx (h l.url) with _ | idx <;>
          · simp only [add_links, entry_infos, List.filterMap_cons, add_link,
              if_neg he, hl, Option.map_some', List.map_cons, drop_self]
            simp only [entry_infos] at ih
            simp [he, ih _]

theorem dedupF_aux_nodup (xs : List Nat) :
    ∀ seen, (dedupF_aux seen xs).Nodup ∧ ∀ x ∈ dedupF_aux seen xs, x ∉ seen := by
  induction xs with
  | nil => intro seen; simp [dedupF_aux]
  | cons x xs ih =>
      intro seen
      by_cases hx : x ∈ seen
      · simpa [dedupF_aux, hx] using ih seen
      · obtain ⟨ihn, ihs⟩ := ih (x :: seen)
        refine ⟨?_, ?_⟩
        · simp only [dedupF_aux, if_neg hx, List.nodup_cons]
          exact ⟨fun hmem => (ihs x hmem) (List.mem_cons_self _ _), ihn⟩
        · intro y hy
          simp only [dedupF_aux, if_neg hx, List.mem_cons] at hy
          rcases hy with rfl | hy
          · exact hx
          · exact fun hys => (ihs y hy) (List.mem_cons_of_mem _ hys)

/-- **C9.** The list returned by a successful `page_db_add` holds one
`(fingerprint, PageInfo)` pair per distinct URL the call examined: its
fingerprints are, in order, the first-occurrence deduplication of the page's
own fingerprint followed by the link fingerprints in declared order; they
are pairwise distinct; and the head entry is the crawled page itself. -/
theorem page_db_add_touched_list (h : String → Nat) (db : PageDB)
    (page : CrawledPage) :
    (page_db_add h db page).2.map Prod.fst =
      dedupF (h page.url :: page.links.map (fun l => h l.url)) ∧
    ((page_db_add h db page).2.map Prod.fst).Nodup ∧
    ∃ pi, (page_db_add h db page).2.head? = some (h page.url, pi) := by
  have e1 : (page_db_add h db page).2 =
      dedup_keys [] ((h page.url, (add_step2 h db page).2.2) ::
        entry_infos (add_links h (h page.url) (add_step2 h db page).1
          page.links).2) := rfl
  have emap : (page_db_add h db page).2.map Prod.fst =
      dedupF (h page.url :: page.links.map (fun l => h l.url)) := by
    rw [e1, dedup_keys_map_fst]
    simp only [List.map_cons]
    rw [entry_infos_keys h (h page.url) page.links (add_step2 h db page).1]
    have hstep : ∀ ys : List Nat,
        dedupF_aux [] (h page.url :: ys) =
          h page.url :: dedupF_aux [h page.url] ys := by
      intro ys; simp [dedupF_aux]
    simp only [dedupF]
    rw [hstep, hstep]
    rw [dedupF_aux_drop_self (h page.url)
      (page.links.map (fun l => h l.url)) [h page.url]
      (List.mem_cons_self _ _)]
  refine ⟨emap, ?_, ?_⟩
  · rw [emap]
    exact (dedupF_aux_nodup _ _).1
  · refine ⟨(add_step2 h db page).2.2, ?_⟩
    rw [e1]
    simp [dedup_keys]

/-! ### Transactional `add` with injected failures (claim C1)

LMDB primitive operations (gets, puts, the final commit) can fail at any
point; the spec requires that any failure aborts the write transaction so
that no sub-database reflects partial work.  `page_db_add_fueled` charges
one unit of fuel per primitive KV operation of the ingestion protocol and
fails once the fuel runs out; on failure it discards the working state and
returns the caller's database unchanged, on success it commits. -/

/-- KV operations consumed by step 2: one `hash2idx` get, then on miss a
`hash2idx` put, the `n_pages` put and a `hash2info` put, on hit a
`hash2info` get and a `hash2info` put. -/
def add_step2_cost (h : String → Nat) (db : PageDB) (page : CrawledPage) :
    Nat :=
  match alookup db.hash2idx (h page.url) with
  | none => 4
  | some _ => 3

/-- KV operations consumed by one link of step 3 (0 for a dropped
self-link). -/
def add_link_cost (h : String → Nat) (hpage : Nat) (db : PageDB)
    (l : LinkInfo) : Nat :=
  if h l.url = hpage then 0
  else
    match alookup db.hash2idx (h l.url) with
    | some _ => 2
    | none => 4

/-- Step 3 with fuel accounting: `none` once the fuel cannot pay for the
next link's KV operations. -/
def add_links_fueled (h : String → Nat) (hpage : Nat) :
    PageDB → List LinkInfo → Nat →
    Option (PageDB × List (Option (Nat × Nat × PageInfo)) × Nat)
  | db, [], fuel => some (db, [], fuel)
  | db, l :: ls, fuel =>
      if fuel < add_link_cost h hpage db l then none
      else
        match add_links_fueled h hpage (add_link h hpage db l).1 ls
            (fuel - add_link_cost h hpage db l) with
        | none => none
        | some (w, es, f) => some (w, (add_link h hpage db l).2 :: es, f)

/-- The ingestion with injected failures: the steps of the ingestion
protocol run on a working transaction state, each primitive KV operation
consuming fuel (the final two units pay for the `links`-row put of step 4
and the commit).  If any operation fails the transaction aborts: the result
state is the caller's database unchanged and no list is returned.  On
success the working state is committed. -/
def page_db_add_fueled (h : String → Nat) (fuel : Nat) (db : PageDB)
    (page : CrawledPage) : PageDB × Option (List (Nat × PageInfo)) :=
  let hpage := h page.url
  if fuel < add_step2_cost h db page then (db, none)
  else
    match add_links_fueled h hpage (add_step2 h db page).1 page.links
        (fuel - add_step2_cost h db page) with
    | none => (db, none)
    | some (w, es, f) =>
        if f < 2 then (db, none)
        else
          let wl := { w with links := aput w.links (add_step2 h db page).2.1 (entry_idxs es) }
          (wl, some (dedup_keys []
             ((hpage, (add_step2 h db page).2.2) :: entry_infos es)))

theorem add_links_fueled_refines (h : String → Nat) (hpage : Nat)
    (ls : List LinkInfo) :
    ∀ (db : PageDB) (fuel : Nat) (w : PageDB)
      (es : List (Option (Nat × Nat × PageInfo))) (f : Nat),
      add_links_fueled h hpage db ls fuel = some (w, es, f) →
      (w, es) = add_links h hpage db ls := by
  induction ls with
  | nil =>
      intro db fuel w es f hsome
      simp only [add_links_fueled, Option.some.injEq, Prod.mk.injEq] at hsome
      obtain ⟨h1, h2, _⟩ := hsome
      simp [add_links, ← h1, ← h2]
  | cons l ls ih =>
      intro db fuel w es f hsome
      by_cases hc : fuel < add_link_cost h hpage db l
      · simp [add_links_fueled, hc] at hsome
      · simp only [add_links_fueled, if_neg hc] at hsome
        rcases hr : add_links_fueled h hpage (add_link h hpage db l).1 ls
            (fuel - add_link_cost h hpage db l) with _ | wef
        · rw [hr] at hsome; cases hsome
        · obtain ⟨w', es', f'⟩ := wef
          rw [hr] at hsome
          simp only [Option.some.injEq, Prod.mk.injEq] at hsome
          obtain ⟨rfl, rfl, _⟩ := hsome
          have := ih (add_link h hpage db l).1
            (fuel - add_link_cost h hpage db l) w' es' f' hr
          simp only [add_links, ← this]

/-- **C1.** `page_db_add` is all-or-nothing: whatever the failure point
(fuel), if the call errors then the returned store — every sub-database:
`info`, `hash2idx`, `hash2info`, `links` — is exactly the state before the
call, and if it succeeds the store and the returned list are exactly those
of the ideal, never-failing ingestion: all updates of steps 1–4 are visible
together. -/
theorem page_db_add_atomic (h : String → Nat) (fuel : Nat) (db : PageDB)
    (page : CrawledPage) :
    ((page_db_add_fueled h fuel db page).2 = none →
       (page_db_add_fueled h fuel db page).1 = db) ∧
    (∀ lst, (page_db_add_fueled h fuel db page).2 = some lst →
       (page_db_add_fueled h fuel db page).1 = (page_db_add h db page).1 ∧
       lst = (page_db_add h db page).2) := by
  by_cases hc : fuel < add_step2_cost h db page
  · constructor
    · intro _; simp [page_db_add_fueled, hc]
    · intro lst hlst; simp [page_db_add_fueled, hc] at hlst
  · rcases hr : add_links_fueled h (h page.url) (add_step2 h db page).1
        page.links (fuel - add_step2_cost h db page) with _ | wef
    · constructor
      · intro _; simp [page_db_add_fueled, hc, hr]
      · intro lst hlst; simp [page_db_add_fueled, hc, hr] at hlst
    · obtain ⟨w, es, f⟩ := wef
      have href : add_links h (h page.url) (add_step2 h db page).1
          page.links = (w, es) :=
        (add_links_fueled_refines h (h page.url) page.links
          (add_step2 h db page).1 (fuel - add_step2_cost h db page)
          w es f hr).symm
      by_cases hf : f < 2
      · constructor
        · intro _; simp [page_db_add_fueled, hc, hr, hf]
        · intro lst hlst; simp [page_db_add_fueled, hc, hr, hf] at hlst
      · constructor
        · intro hnone
          simp [page_db_add_fueled, hc, hr, hf] at hnone
        · intro lst hlst
          constructor
          · simp only [page_db_add_fueled, if_neg hc, hr, if_neg hf]
            simp only [page_db_add, href]
          · simp only [page_db_add_fueled, if_neg hc, hr, if_neg hf,
              Option.some.injEq] at hlst
            simp only [page_db_add, href, ← hlst]

/-- Witness for `page_db_add_atomic`: with no fuel the very first KV
operation fails, and the database is returned unchanged. -/
theorem page_db_add_atomic_witness :
    (page_db_add_fueled hw 0 db1w pw2).1 = db1w :=
  (page_db_add_atomic hw 0 db1w pw2).1 (by decide)

/-! ### The link stream (spec §4.4, claim C7) -/

/-- Modelled from the spec (§4.4; `link_stream.h` is absent from the
repository): the stream states `init → next → end`, with `error` reachable
on cursor errors.  `end` is a Lean keyword, so the constructor is named
`ended`. -/
inductive LinkStreamState where
  | init
  | next
  | ended
  | error
  deriving DecidableEq, Repr

/-- One edge of the link graph.  `from` is a Lean keyword, so the fields
are `from_idx` / `to_idx`. -/
structure Link where
  from_idx : Nat
  to_idx : Nat
  deriving DecidableEq, Repr

/-- Modelled from the spec (§4.4): one step of the cursor machine on the
frame `(rest-of-rows, from, remaining targets)`.  Within a row it emits
`(from, to_i)`; at the end of a row it advances the cursor to the next key,
loads the row and recurses; on an exhausted cursor it reports `ended`. -/
def stream_step (rest : List (Nat × List Nat)) (cfrom : Nat)
    (crest : List Nat) :
    List (Nat × List Nat) × Nat × List Nat × LinkStreamState × Option Link :=
  match rest, cfrom, crest with
  | rows, cf, t :: ts =>
      (rows, cf, ts, LinkStreamState.next, some ⟨cf, t⟩)
  | [], cf, [] => ([], cf, [], LinkStreamState.ended, none)
  | (f, ts) :: rows, _, [] => stream_step rows f ts

/-- Modelled from the spec (§4.4, the body being absent from the
repository): the `PageDBLinkStream` of `page_db.h`.  `all` is the snapshot
of the `links` sub-database seen by the stream's read transaction; `rest`
is the cursor position (rows not yet loaded); `cfrom`, `crest` are the
current row's key and remaining targets. -/
structure PageDBLinkStream where
  all : List (Nat × List Nat)
  rest : List (Nat × List Nat)
  cfrom : Nat
  crest : List Nat
  state : LinkStreamState
  deriving DecidableEq, Repr

/-- Open a stream over a database: cursor before the first key, `init`. -/
def page_db_link_stream_new (db : PageDB) : PageDBLinkStream :=
  { all := db.links, rest := db.links, cfrom := 0, crest := [],
    state := LinkStreamState.init }

/-- Reset the stream: reposition the cursor before the first key. -/
def page_db_link_stream_reset (s : PageDBLinkStream) : PageDBLinkStream :=
  { s with rest := s.all, crest := [], state := LinkStreamState.init }

/-- Advance the stream: one step of the state machine; returns the new stream and the
emitted edge if any. -/
def page_db_link_stream_next (s : PageDBLinkStream) :
    PageDBLinkStream × Option Link :=
  match stream_step s.rest s.cfrom s.crest with
  | (rest', cfrom', crest', st', out) =>
      ({ s with rest := rest', cfrom := cfrom', crest := crest',
                state := st' }, out)

/-- Repeated `next` with explicit fuel, collecting emitted edges until the
stream stops emitting. -/
def drain_fuel : Nat → PageDBLinkStream → List Link
  | 0, _ => []
  | Nat.succ fuel, s =>
      match page_db_link_stream_next s with
      | (s', some l) => l :: drain_fuel fuel s'
      | (_, none) => []

/-- An upper bound on the number of `next` calls a full drain can take. -/
def stream_measure (s : PageDBLinkStream) : Nat :=
  s.crest.length + (s.rest.map (fun r => r.2.length + 1)).sum

/-- Fully drain the stream by repeated `next` until no edge is emitted. -/
def page_db_link_stream_drain (s : PageDBLinkStream) : List Link :=
  drain_fuel (stream_measure s + 1) s

/-- All edges stored in a `links` sub-database, row by row. -/
def rows_edges : List (Nat × List Nat) → List Link
  | [] => []
  | (f, ts) :: rows => ts.map (fun t => ⟨f, t⟩) ++ rows_edges rows

/-- All edges stored in the `links` sub-database of a `PageDB`. -/
def page_db_edges (db : PageDB) : List Link := rows_edges db.links

theorem next_skip_row (s : PageDBLinkStream) (f0 : Nat) (ts0 : List Nat)
    (rows : List (Nat × List Nat)) (h1 : s.crest = [])
    (h2 : s.rest = (f0, ts0) :: rows) :
    page_db_link_stream_next s =
      page_db_link_stream_next { s with rest := rows, cfrom := f0, crest := ts0 } := by
  rcases hss : stream_step rows f0 ts0 with ⟨r', c', cr', st', out⟩
  simp [page_db_link_stream_next, h1, h2, stream_step, hss]

theorem drain_fuel_spec : ∀ (m fuel : Nat) (s : PageDBLinkStream),
    stream_measure s = m → m < fuel →
    drain_fuel fuel s =
      s.crest.map (fun t => Link.mk s.cfrom t) ++ rows_edges s.rest := by
  intro m
  induction m using Nat.strong_induction_on with
  | _ m ih =>
      intro fuel s hm hf
      rcases fuel with _ | g
      · omega
      rcases hc : s.crest with _ | ⟨t, ts⟩
      · rcases hr : s.rest with _ | ⟨⟨f0, ts0⟩, rows⟩
        · have hend : page_db_link_stream_next s =
              ({ s with state := LinkStreamState.ended }, none) := by
            simp [page_db_link_stream_next, hc, hr, stream_step]
          simp [drain_fuel, hend, hc, hr, rows_edges]
        · have hm1 : 1 ≤ m := by
            rw [← hm]
            simp only [stream_measure, hc, hr, List.length_nil, List.map_cons,
              List.sum_cons]
            omega
          have hskip := next_skip_row s f0 ts0 rows hc hr
          have heq : drain_fuel (g + 1) s =
              drain_fuel (g + 1) { s with rest := rows, cfrom := f0, crest := ts0 } := by
            simp only [drain_fuel, hskip]
          rw [heq]
          have hm' : stream_measure { s with rest := rows, cfrom := f0, crest := ts0 } = m - 1 := by
            simp only [stream_measure, hc, hr, List.length_nil, List.map_cons,
              List.sum_cons] at hm
            simp only [stream_measure]
            omega
          rw [ih (m - 1) (by omega) (g + 1) _ hm' (by omega)]
          simp [hc, hr, rows_edges]
      · have hnext : page_db_link_stream_next s =
            ({ s with crest := ts, state := LinkStreamState.next },
             some ⟨s.cfrom, t⟩) := by
          simp [page_db_link_stream_next, hc, stream_step]
        have hm1 : 1 ≤ m := by
          rw [← hm]
          simp only [stream_measure, hc, List.length_cons]
          omega
        have hm' : stream_measure { s with crest := ts, state := LinkStreamState.next } = m - 1 := by
          simp only [stream_measure, hc, List.length_cons] at hm
          simp only [stream_measure]
          omega
        simp only [drain_fuel, hnext]
        rw [ih (m - 1) (by omega) g _ hm' (by omega)]
        simp [hc]

/-- **C7.** Fully draining a link stream by repeated
`page_db_link_stream_next` enumerates exactly the edges stored in the
`links` sub-database snapshot, with no duplicates and no omissions (the
produced list literally equals the stored rows flattened in order, hence
the multisets agree); `page_db_link_stream_reset` followed by a second
drain yields the same edges, since `next` never changes the snapshot. -/
theorem page_db_link_stream_complete (db : PageDB) :
    page_db_link_stream_drain (page_db_link_stream_new db) =
      page_db_edges db ∧
    (∀ s : PageDBLinkStream,
       page_db_link_stream_drain (page_db_link_stream_reset s) =
         rows_edges s.all) ∧
    (∀ s : PageDBLinkStream,
       (page_db_link_stream_next s).1.all = s.all) ∧
    (page_db_link_stream_new db).all = db.links := by
  refine ⟨?_, ?_, ?_, rfl⟩
  · rw [page_db_link_stream_drain,
      drain_fuel_spec (stream_measure (page_db_link_stream_new db)) _ _ rfl
        (Nat.lt_succ_self _)]
    simp [page_db_link_stream_new, page_db_edges]
  · intro s
    rw [page_db_link_stream_drain,
      drain_fuel_spec (stream_measure (page_db_link_stream_reset s)) _ _ rfl
        (Nat.lt_succ_self _)]
    simp [page_db_link_stream_reset]
  · intro s
    rcases hss : stream_step s.rest s.cfrom s.crest with ⟨r', c', cr', st', o⟩
    simp [page_db_link_stream_next, hss]

/-! ### PageInfo serialization (spec §4.2, claim C3) -/

/-- The `k` little-endian base-256 digits of `n`. -/
def le_enc : Nat → Nat → List Nat
  | 0, _ => []
  | k + 1, n => n % 256 :: le_enc k (n / 256)

/-- Value of a little-endian base-256 digit sequence. -/
def le_dec : List Nat → Nat
  | [] => 0
  | b :: rest => b + 256 * le_dec rest

theorem le_enc_length (k : Nat) : ∀ n, (le_enc k n).length = k := by
  induction k with
  | zero => intro n; rfl
  | succ k ih => intro n; simp [le_enc, ih]

theorem le_dec_le_enc (k : Nat) : ∀ n, n < 256 ^ k → le_dec (le_enc k n) = n := by
  induction k with
  | zero =>
      intro n hn
      simp [pow_zero] at hn
      simp [hn, le_enc, le_dec]
  | succ k ih =>
      intro n hn
      have hdiv : n / 256 < 256 ^ k := by
        rw [Nat.div_lt_iff_lt_mul (by norm_num : 0 < 256)]
        calc n < 256 ^ (k + 1) := hn
          _ = 256 ^ k * 256 := by rw [pow_succ]
      simp [le_enc, le_dec, ih (n / 256) hdiv, Nat.mod_add_div]

/-- Modelled from the spec (§4.2, the body of `page_info_dump` being absent
from the repository): the in-memory `PageInfo` as it is serialized.  The
`f64`/`f32` fields are represented by their 8-byte/4-byte machine words
(`Nat < 2^64` / `< 2^32`), since serialization copies their bit patterns;
`url` and `content_hash` are byte sequences. -/
structure PageInfoRaw where
  url : List Nat
  first_crawl : Nat
  last_crawl : Nat
  n_changes : Nat
  n_crawls : Nat
  score : Nat
  content_hash : List Nat
  deriving DecidableEq, Repr

/-- A `PageInfoRaw` whose fields fit the §4.2 layout: scalars within their
machine words, lengths within `u16`, byte entries below 256. -/
def page_info_valid (pi : PageInfoRaw) : Prop :=
  pi.first_crawl < 2 ^ 64 ∧ pi.last_crawl < 2 ^ 64 ∧ pi.n_crawls < 2 ^ 64 ∧
  pi.n_changes < 2 ^ 64 ∧ pi.score < 2 ^ 32 ∧ pi.url.length < 2 ^ 16 ∧
  pi.content_hash.length < 2 ^ 16 ∧ (∀ b ∈ pi.url, b < 256) ∧
  (∀ b ∈ pi.content_hash, b < 256)

instance page_info_valid_decidable (pi : PageInfoRaw) :
    Decidable (page_info_valid pi) := by
  unfold page_info_valid
  infer_instance

/-- Modelled from the spec (§4.2): serialize a `PageInfo` into one
contiguous little-endian buffer: `first_crawl` (8), `last_crawl` (8),
`n_crawls` (8), `n_changes` (8), `score` (4), `url_length` (2), the url
bytes, `content_hash_length` (2), the hash bytes. -/
def page_info_dump (pi : PageInfoRaw) : List Nat :=
  le_enc 8 pi.first_crawl ++ le_enc 8 pi.last_crawl ++ le_enc 8 pi.n_crawls ++
  le_enc 8 pi.n_changes ++ le_enc 4 pi.score ++ le_enc 2 pi.url.length ++
  pi.url ++ le_enc 2 pi.content_hash.length ++ pi.content_hash

/-- Modelled from the spec (§4.2): deserialize a buffer, validating that
its length matches the declared `url_length` and `content_hash_length`
fields; on mismatch, `none`. -/
def page_info_load (b : List Nat) : Option PageInfoRaw :=
  if b.length < 38 then none
  else
    let ul := le_dec ((b.drop 36).take 2)
    if b.length < 40 + ul then none
    else
      let chl := le_dec ((b.drop (38 + ul)).take 2)
      if b.length = 40 + ul + chl then
        some { url := (b.drop 38).take ul,
               first_crawl := le_dec (b.take 8),
               last_crawl := le_dec ((b.drop 8).take 8),
               n_crawls := le_dec ((b.drop 16).take 8),
               n_changes := le_dec ((b.drop 24).take 8),
               score := le_dec ((b.drop 32).take 4),
               content_hash := (b.drop (40 + ul)).take chl }
      else none

theorem take_append_of_length {α : Type} :
    ∀ (l1 l2 : List α) (n : Nat), l1.length = n → (l1 ++ l2).take n = l1 := by
  intro l1
  induction l1 with
  | nil => intro l2 n hn; simp at hn; simp [← hn]
  | cons x xs ih =>
      intro l2 n hn
      rcases n with _ | n
      · simp at hn
      · simp at hn
        simp [List.take_succ_cons, ih l2 n hn]

theorem drop_append_of_length {α : Type} :
    ∀ (l1 l2 : List α) (n : Nat), l1.length = n → (l1 ++ l2).drop n = l2 := by
  intro l1
  induction l1 with
  | nil => intro l2 n hn; simp at hn; simp [← hn]
  | cons x xs ih =>
      intro l2 n hn
      rcases n with _ | n
      · simp at hn
      · simp at hn
        simp [List.drop_succ_cons, ih l2 n hn]

theorem page_info_load_dump (pi : PageInfoRaw) (hv : page_info_valid pi) :
    page_info_load (page_info_dump pi) = some pi := by
  obtain ⟨h1, h2, h3, h4, h5, h6, h7, _, _⟩ := hv
  have e64 : (2 : Nat) ^ 64 = 256 ^ 8 := by norm_num
  have e32 : (2 : Nat) ^ 32 = 256 ^ 4 := by norm_num
  have e16 : (2 : Nat) ^ 16 = 256 ^ 2 := by norm_num
  have hb : page_info_dump pi =
      le_enc 8 pi.first_crawl ++ (le_enc 8 pi.last_crawl ++
        (le_enc 8 pi.n_crawls ++ (le_enc 8 pi.n_changes ++
          (le_enc 4 pi.score ++ (le_enc 2 pi.url.length ++
            (pi.url ++ (le_enc 2 pi.content_hash.length ++
              pi.content_hash))))))) := by
    simp [page_info_dump, List.append_assoc]
  have s8 : (page_info_dump pi).drop 8 =
      le_enc 8 pi.last_crawl ++ (le_enc 8 pi.n_crawls ++
        (le_enc 8 pi.n_changes ++ (le_enc 4 pi.score ++
          (le_enc 2 pi.url.length ++ (pi.url ++
            (le_enc 2 pi.content_hash.length ++ pi.content_hash)))))) := by
    rw [hb]; exact drop_append_of_length _ _ 8 (le_enc_length 8 _)
  have s16 : (page_info_dump pi).drop 16 =
      le_enc 8 pi.n_crawls ++ (le_enc 8 pi.n_changes ++
        (le_enc 4 pi.score ++ (le_enc 2 pi.url.length ++
          (pi.url ++ (le_enc 2 pi.content_hash.length ++
            pi.content_hash))))) := by
    rw [(by omega : (16 : Nat) = 8 + 8), ← List.drop_drop, s8]
    exact drop_append_of_length _ _ 8 (le_enc_length 8 _)
  have s24 : (page_info_dump pi).drop 24 =
      le_enc 8 pi.n_changes ++ (le_enc 4 pi.score ++
        (le_enc 2 pi.url.length ++ (pi.url ++
          (le_enc 2 pi.content_hash.length ++ pi.content_hash)))) := by
    rw [(by omega : (24 : Nat) = 16 + 8), ← List.drop_drop, s16]
    exact drop_append_of_length _ _ 8 (le_enc_length 8 _)
  have s32 : (page_info_dump pi).drop 32 =
      le_enc 4 pi.score ++ (le_enc 2 pi.url.length ++
        (pi.url ++ (le_enc 2 pi.content_hash.length ++
          pi.content_hash))) := by
    rw [(by omega : (32 : Nat) = 24 + 8), ← List.drop_drop, s24]
    exact drop_append_of_length _ _ 8 (le_enc_length 8 _)
  have s36 : (page_info_dump pi).drop 36 =
      le_enc 2 pi.url.length ++ (pi.url ++
        (le_enc 2 pi.content_hash.length ++ pi.content_hash)) := by
    rw [(by omega : (36 : Nat) = 32 + 4), ← List.drop_drop, s32]
    exact drop_append_of_length _ _ 4 (le_enc_length 4 _)
  have s38 : (page_info_dump pi).drop 38 =
      pi.url ++ (le_enc 2 pi.content_hash.length ++ pi.content_hash) := by
    rw [(by omega : (38 : Nat) = 36 + 2), ← List.drop_drop, s36]
    exact drop_append_of_length _ _ 2 (le_enc_length 2 _)
  have s38u : (page_info_dump pi).drop (38 + pi.url.length) =
      le_enc 2 pi.content_hash.length ++ pi.content_hash := by
    rw [← List.drop_drop, s38]
    exact drop_append_of_length _ _ _ rfl
  have s40u : (page_info_dump pi).drop (40 + pi.url.length) =
      pi.content_hash := by
    rw [(by omega : 40 + pi.url.length = 38 + pi.url.length + 2),
      ← List.drop_drop, s38u]
    exact drop_append_of_length _ _ 2 (le_enc_length 2 _)
  have dec6 : le_dec (((page_info_dump pi).drop 36).take 2) =
      pi.url.length := by
    rw [s36, take_append_of_length _ _ 2 (le_enc_length 2 _)]
    exact le_dec_le_enc 2 _ (by omega)
  have dec8 : le_dec (((page_info_dump pi).drop (38 + pi.url.length)).take 2) =
      pi.content_hash.length := by
    rw [s38u, take_append_of_length _ _ 2 (le_enc_length 2 _)]
    exact le_dec_le_enc 2 _ (by omega)
  have dec1 : le_dec ((page_info_dump pi).take 8) = pi.first_crawl := by
    rw [hb, take_append_of_length _ _ 8 (le_enc_length 8 _)]
    exact le_dec_le_enc 8 _ (by omega)
  have dec2 : le_dec (((page_info_dump pi).drop 8).take 8) =
      pi.last_crawl := by
    rw [s8, take_append_of_length _ _ 8 (le_enc_length 8 _)]
    exact le_dec_le_enc 8 _ (by omega)
  have dec3 : le_dec (((page_info_dump pi).drop 16).take 8) =
      pi.n_crawls := by
    rw [s16, take_append_of_length _ _ 8 (le_enc_length 8 _)]
    exact le_dec_le_enc 8 _ (by omega)
  have dec4 : le_dec (((page_info_dump pi).drop 24).take 8) =
      pi.n_changes := by
    rw [s24, take_append_of_length _ _ 8 (le_enc_length 8 _)]
    exact le_dec_le_enc 8 _ (by omega)
  have dec5 : le_dec (((page_info_dump pi).drop 32).take 4) = pi.score := by
    rw [s32, take_append_of_length _ _ 4 (le_enc_length 4 _)]
    exact le_dec_le_enc 4 _ (by omega)
  have tU : ((page_info_dump pi).drop 38).take pi.url.length = pi.url := by
    rw [s38]
    exact take_append_of_length _ _ _ rfl
  have tC : ((page_info_dump pi).drop (40 + pi.url.length)).take
      pi.content_hash.length = pi.content_hash := by
    rw [s40u]
    exact List.take_length _
  have hlen : (page_info_dump pi).length =
      40 + pi.url.length + pi.content_hash.length := by
    simp [page_info_dump, le_enc_length]
    omega
  simp only [page_info_load]
  rw [dec6, dec8, hlen]
  rw [if_neg (by omega), if_neg (by omega), if_pos rfl]
  rw [dec1, dec2, dec3, dec4, dec5, tU, tC]

theorem page_info_load_length (b : List Nat) (pi : PageInfoRaw)
    (hload : page_info_load b = some pi) :
    b.length = 40 + pi.url.length + pi.content_hash.length := by
  simp only [page_info_load] at hload
  split_ifs at hload with hA hB hC
  rw [Option.some.injEq] at hload
  subst hload
  show b.length = 40 +
    (List.take (le_dec (List.take 2 (List.drop 36 b)))
      (List.drop 38 b)).length +
    (List.take (le_dec (List.take 2
        (List.drop (38 + le_dec (List.take 2 (List.drop 36 b))) b)))
      (List.drop (40 + le_dec (List.take 2 (List.drop 36 b))) b)).length
  simp only [List.length_take, List.length_drop]
  omega

/-- **C3.** `page_info_load` inverts `page_info_dump` on every valid
`PageInfo` (round trip over the §4.2 little-endian layout), and a buffer
that `page_info_load` accepts has exactly the length declared by its
`url_length` and `content_hash_length` fields — any buffer whose length
does not match its declared field lengths is rejected. -/
theorem page_info_dump_load_roundtrip :
    (∀ pi : PageInfoRaw, page_info_valid pi →
       page_info_load (page_info_dump pi) = some pi) ∧
    (∀ (b : List Nat) (pi : PageInfoRaw), page_info_load b = some pi →
       b.length = 40 + pi.url.length + pi.content_hash.length) :=
  ⟨page_info_load_dump, page_info_load_length⟩

/-- A concrete serializable record for the round-trip witness. -/
def pi_raw_ex : PageInfoRaw :=
  { url := [104, 105], first_crawl := 1000, last_crawl := 2000,
    n_changes := 1, n_crawls := 3, score := 77, content_hash := [5, 6, 7] }

/-- Witness for `page_info_dump_load_roundtrip`: the round trip on a
concrete record. -/
theorem page_info_dump_load_roundtrip_witness :
    page_info_load (page_info_dump pi_raw_ex) = some pi_raw_ex :=
  page_info_dump_load_roundtrip.1 pi_raw_ex (by decide)

/-! ### Change-rate estimate (spec §4.2, claim C8) -/

/-- Modelled from the spec (§4.2, the body of `page_info_rate` being absent
from the repository): `n_changes / max(1 second, last_crawl − first_crawl)`
when `n_crawls ≥ 2`, else 0. -/
def page_info_rate (pi : PageInfo) : ℚ :=
  if 2 ≤ pi.n_crawls then
    (pi.n_changes : ℚ) / max 1 (pi.last_crawl - pi.first_crawl)
  else 0

/-- The spec's scenario S6 record: `first_crawl = 0`, `last_crawl = 100`,
`n_crawls = 3`, `n_changes = 2`. -/
def pi_rate_ex : PageInfo :=
  { url := "x", first_crawl := 0, last_crawl := 100, n_changes := 2,
    n_crawls := 3, score := 0, content_hash := [] }

/-- **C8.** `page_info_rate` returns `n_changes` divided by
`max(1 second, last_crawl − first_crawl)` when `n_crawls ≥ 2` and 0
otherwise; on the S6 record the rate is `2 / 100 = 0.02`. -/
theorem page_info_rate_spec :
    (∀ pi : PageInfo, 2 ≤ pi.n_crawls →
       page_info_rate pi =
         (pi.n_changes : ℚ) / max 1 (pi.last_crawl - pi.first_crawl)) ∧
    (∀ pi : PageInfo, pi.n_crawls < 2 → page_info_rate pi = 0) ∧
    page_info_rate pi_rate_ex = 2 / 100 := by
  refine ⟨?_, ?_, ?_⟩
  · intro pi h
    simp [page_info_rate, h]
  · intro pi h
    simp [page_info_rate, not_le.mpr h]
  · norm_num [page_info_rate, pi_rate_ex]

/-- Witness for `page_info_rate_spec`: the `n_crawls ≥ 2` branch applied to
the S6 record. -/
theorem page_info_rate_spec_witness :
    page_info_rate pi_rate_ex =
      (pi_rate_ex.n_changes : ℚ) /
        max 1 (pi_rate_ex.last_crawl - pi_rate_ex.first_crawl) :=
  page_info_rate_spec.1 pi_rate_ex (by decide)

/-! ### Totality of `page_info_delete` (claim C10) -/

/-- Release the allocation at address `a` from a heap of live `PageInfo`
allocations. -/
def heap_free : List (Nat × PageInfo) → Nat → List (Nat × PageInfo)
  | [], _ => []
  | (k, v) :: rest, a =>
      if k = a then heap_free rest a else (k, v) :: heap_free rest a

/-- Modelled from `page_db.h`'s documented contract, the body being absent
from the repository: "Destroy PageInfo if not NULL, otherwise does
nothing".  The heap is the set of live allocations keyed by address; the
argument is a possibly-NULL pointer. -/
def page_info_delete (heap : List (Nat × PageInfo)) (p : Option Nat) :
    List (Nat × PageInfo) :=
  match p with
  | none => heap
  | some a => heap_free heap a

theorem heap_free_lookup_self (heap : List (Nat × PageInfo)) (a : Nat) :
    alookup (heap_free heap a) a = none := by
  induction heap with
  | nil => rfl
  | cons e rest ih =>
      obtain ⟨k, v⟩ := e
      by_cases hk : k = a <;> simp [heap_free, alookup, hk, ih]

theorem heap_free_lookup_ne (heap : List (Nat × PageInfo)) (a b : Nat)
    (hne : b ≠ a) :
    alookup (heap_free heap a) b = alookup heap b := by
  induction heap with
  | nil => rfl
  | cons e rest ih =>
      obtain ⟨k, v⟩ := e
      by_cases hk : k = a
      · subst hk
        have : k ≠ b := fun e => hne e.symm
        simp [heap_free, alookup, this, ih]
      · by_cases hkb : k = b <;> simp [heap_free, alookup, hk, hkb, hne, ih]

/-- **C10.** `page_info_delete` is total on its argument: called on a NULL
pointer it does nothing (no error, no state change); called on a live
allocation it releases exactly that allocation, leaving every other
allocation untouched.  Callers never need to NULL-check first. -/
theorem page_info_delete_total :
    (∀ heap : List (Nat × PageInfo), page_info_delete heap none = heap) ∧
    (∀ (heap : List (Nat × PageInfo)) (a : Nat),
       alookup (page_info_delete heap (some a)) a = none) ∧
    (∀ (heap : List (Nat × PageInfo)) (a b : Nat), b ≠ a →
       alookup (page_info_delete heap (some a)) b = alookup heap b) :=
  ⟨fun _ => rfl, fun heap a => heap_free_lookup_self heap a,
   fun heap a b hne => heap_free_lookup_ne heap a b hne⟩

/-- Witness for `page_info_delete_total`: freeing address 2 in a one-entry
heap leaves the entry at address 1 untouched. -/
theorem page_info_delete_total_witness :
    alookup (page_info_delete [(1, crawl_page_info pw)] (some 2)) 1 =
      alookup [(1, crawl_page_info pw)] 1 :=
  page_info_delete_total.2.2 [(1, crawl_page_info pw)] 2 1 (by decide)

end Aduana
